import Mathlib

/-!
Verification of the low-latency execution engine core: the 38-byte wire codec
(`MessageParser::parse` / `MessageParser::serialize`), the SPSC ring-buffer
channel (`spscqueue::SPSCQueue`), and the latency ring / analyzer
(`MessageParser::recordLatency`, `LatencyTracker::analyzeLatencies`).

Bytes are modelled as natural numbers below 256; machine integers as natural
numbers with explicit bounds (`< 2^64`, `< 2^32`); the C++ `double` price is
represented by its IEEE-754 bit pattern (a natural number below `2^64`), since
the codec only ever moves the pattern around with `memcpy` (a bit
reinterpretation, never a numeric conversion) and compares against `0.0`.
The analyzer's `double` mean is modelled by emulating binary64
round-to-nearest-even arithmetic on exact rational values (`roundDouble` and
the `fp*` operations below).
-/

namespace LLEE

/-- Alphanumeric test for a byte, modelling `std::isalnum` in the default
"C" locale used by the program: decimal digits, upper-case letters and
lower-case letters; bytes 128–255 are not alphanumeric. -/
def isAlnumByte (b : Nat) : Bool :=
  (48 ≤ b && b ≤ 57) || (65 ≤ b && b ≤ 90) || (97 ≤ b && b ≤ 122)

/-- Model of `MessageParser::validateSymbol`: walk the (at most 8) symbol
bytes; stop at the first null byte; every byte before it must be
alphanumeric. -/
def validateSymbol : List Nat → Bool
  | [] => true
  | b :: rest => if b = 0 then true else if isAlnumByte b then validateSymbol rest else false

/-- Model of `MessageParser::validatePrice` (`price > 0.0`) on the IEEE-754
bit pattern of the 64-bit float: the comparison holds exactly when the sign
bit is clear, the pattern is not `+0.0`, and the pattern is not a NaN
(exponent field all ones with a non-zero mantissa).  Positive subnormals and
`+inf` compare greater than zero; every NaN and every negative pattern does
not. -/
def validatePrice (p : Nat) : Bool :=
  decide (0 < p ∧ p < 2 ^ 63 ∧ ¬(p / 2 ^ 52 = 2047 ∧ p % 2 ^ 52 ≠ 0))

/-- Model of `MessageParser::validateQuantity` (`qty > 0`). -/
def validateQuantity (q : Nat) : Bool :=
  decide (0 < q)

/-- Big-endian byte string (most significant byte first) of `n`, `len` bytes,
modelling the `hton64` / `htonl` output as stored in `WireOrder`. -/
def toBytesBE : Nat → Nat → List Nat
  | 0, _ => []
  | len + 1, n => toBytesBE len (n / 256) ++ [n % 256]

/-- Read a big-endian byte string back into a natural number, modelling
`ntoh64` / `ntohl` applied to the raw wire bytes. -/
def fromBytesBE (bs : List Nat) : Nat :=
  bs.foldl (fun a b => a * 256 + b) 0

/-- Model of the in-memory `Order` struct (`Order.h`): the decoded/native
record.  `price` holds the IEEE-754 bit pattern of the C++ `double`; `side`
and `type` hold the raw byte patterns of the `Side` (`int8_t`) and
`OrderType` (`uint8_t`) tags. -/
structure Order where
  order_id : Nat
  timestamp_ns : Nat
  symbol : List Nat
  price : Nat
  quantity : Nat
  side : Nat
  type : Nat
  deriving Repr, DecidableEq

/-- Machine-representability of an `Order`: the field bounds imposed by the
C++ types (`uint64_t`, `char[8]`, `double` bit pattern, `uint32_t`, one-byte
tags). -/
def Order.WF (o : Order) : Prop :=
  o.order_id < 2 ^ 64 ∧ o.timestamp_ns < 2 ^ 64 ∧
  o.symbol.length = 8 ∧ (∀ b ∈ o.symbol, b < 256) ∧
  o.price < 2 ^ 64 ∧ o.quantity < 2 ^ 32 ∧ o.side < 256 ∧ o.type < 256

instance : DecidablePred Order.WF := fun o => by
  unfold Order.WF; infer_instance

/-- Discriminated decode failure.  The C++ `parse` reports every failure as a
bare `std::nullopt`; the constructors here label which of its guards fired,
in the source's order: the size check (line 109), then the three validators
of line 123, whose `||` chain short-circuits left to right. -/
inductive DecodeError where
  | Truncated
  | InvalidSymbol
  | InvalidPrice
  | InvalidQuantity
  deriving Repr, DecidableEq

/-- Field extraction and validation performed by `MessageParser::parse` on
the 38 bytes `memcpy`ed into the local `WireOrder w`: big-endian integer
fields at offsets 0, 8, 16, 24; the 8 symbol bytes at offset 28; the two tag
bytes at offsets 36 and 37, copied verbatim. -/
def decodeRecord (w : List Nat) : Except DecodeError Order :=
  let o : Order :=
    { order_id := fromBytesBE (w.take 8)
      timestamp_ns := fromBytesBE ((w.drop 8).take 8)
      symbol := (w.drop 28).take 8
      price := fromBytesBE ((w.drop 16).take 8)
      quantity := fromBytesBE ((w.drop 24).take 4)
      side := (w.drop 36).headD 0
      type := (w.drop 37).headD 0 }
  if ¬ validateSymbol o.symbol then .error .InvalidSymbol
  else if ¬ validatePrice o.price then .error .InvalidPrice
  else if ¬ validateQuantity o.quantity then .error .InvalidQuantity
  else .ok o

/-- Model of `MessageParser::parse`: fail on a buffer shorter than
`sizeof(WireOrder) = 38`, otherwise `memcpy` exactly the first 38 bytes into
a `WireOrder` and decode them.  The `__rdtsc` latency sampling on the
success path is telemetry into the latency ring and is modelled separately
by `recordLatency`. -/
def parse (data : List Nat) : Except DecodeError Order :=
  if data.length < 38 then .error .Truncated
  else decodeRecord (data.take 38)

/-- Model of `MessageParser::serialize`: write each integer field big-endian
(`hton64` / `htonl`), the price as the byte-order-converted bit pattern,
then the 8 symbol bytes and the two tag bytes verbatim, in the `WireOrder`
field order. -/
def serialize (o : Order) : List Nat :=
  toBytesBE 8 o.order_id ++ (toBytesBE 8 o.timestamp_ns ++ (toBytesBE 8 o.price ++
    (toBytesBE 4 o.quantity ++ (o.symbol ++ [o.side, o.type]))))

theorem toBytesBE_length (len n : Nat) : (toBytesBE len n).length = len := by
  induction len generalizing n with
  | zero => rfl
  | succ l ih => simp [toBytesBE, ih]

theorem fromBytesBE_append_singleton (bs : List Nat) (b : Nat) :
    fromBytesBE (bs ++ [b]) = fromBytesBE bs * 256 + b := by
  simp [fromBytesBE, List.foldl_append]

theorem fromBytesBE_toBytesBE (len n : Nat) :
    fromBytesBE (toBytesBE len n) = n % 256 ^ len := by
  induction len generalizing n with
  | zero => simp [toBytesBE, fromBytesBE, Nat.mod_one]
  | succ l ih =>
    rw [toBytesBE, fromBytesBE_append_singleton, ih]
    rw [pow_succ' (M := ℕ) 256 l, Nat.mod_mul]
    ring

theorem fromBytesBE_toBytesBE_of_lt {len n : Nat} (h : n < 256 ^ len) :
    fromBytesBE (toBytesBE len n) = n := by
  rw [fromBytesBE_toBytesBE, Nat.mod_eq_of_lt h]

theorem serialize_length (o : Order) (h : o.symbol.length = 8) :
    (serialize o).length = 38 := by
  simp [serialize, toBytesBE_length, h]

/-- Claim C4: every buffer shorter than 38 bytes decodes to the `Truncated`
failure, whatever its content; no record and no other failure kind is
produced. -/
theorem parse_truncated (data : List Nat) (h : data.length < 38) :
    parse data = .error .Truncated := by
  unfold parse
  rw [if_pos h]

/-- Witness for C4 at the concrete 3-byte buffer `[1, 2, 3]`. -/
theorem parse_truncated_witness :
    [1, 2, 3].length < 38 ∧ parse [1, 2, 3] = .error .Truncated :=
  ⟨by decide, parse_truncated [1, 2, 3] (by decide)⟩

/-- Claim C10: the outcome of decoding depends only on the first 38 bytes of
the input; two buffers of length at least 38 that agree on their first 38
bytes decode identically. -/
theorem parse_reads_first38_only (d1 d2 : List Nat)
    (h1 : 38 ≤ d1.length) (h2 : 38 ≤ d2.length)
    (h : d1.take 38 = d2.take 38) : parse d1 = parse d2 := by
  unfold parse
  rw [if_neg (by omega), if_neg (by omega), h]

/-- Witness for C10: two concrete buffers differing only from offset 38 on. -/
theorem parse_reads_first38_only_witness :
    38 ≤ (List.replicate 38 0 ++ [7]).length ∧
    38 ≤ (List.replicate 38 0 ++ [9, 9]).length ∧
    (List.replicate 38 0 ++ [7]).take 38 = (List.replicate 38 0 ++ [9, 9]).take 38 ∧
    parse (List.replicate 38 0 ++ [7]) = parse (List.replicate 38 0 ++ [9, 9]) :=
  ⟨by decide, by decide, by decide,
    parse_reads_first38_only _ _ (by decide) (by decide) (by decide)⟩

theorem decodeRecord_fields (a b c d sym : List Nat) (s t : Nat)
    (ha : a.length = 8) (hb : b.length = 8) (hc : c.length = 8)
    (hd : d.length = 4) (hsy : sym.length = 8) :
    decodeRecord (a ++ (b ++ (c ++ (d ++ (sym ++ [s, t]))))) =
      (if ¬ validateSymbol sym then .error .InvalidSymbol
       else if ¬ validatePrice (fromBytesBE c) then .error .InvalidPrice
       else if ¬ validateQuantity (fromBytesBE d) then .error .InvalidQuantity
       else .ok { order_id := fromBytesBE a, timestamp_ns := fromBytesBE b,
                  symbol := sym, price := fromBytesBE c, quantity := fromBytesBE d,
                  side := s, type := t }) := by
  set w := a ++ (b ++ (c ++ (d ++ (sym ++ [s, t])))) with hw
  have h8 : w.drop 8 = b ++ (c ++ (d ++ (sym ++ [s, t]))) := List.drop_left' ha
  have h16 : w.drop 16 = c ++ (d ++ (sym ++ [s, t])) := by
    rw [show (16 : Nat) = 8 + 8 from rfl, ← List.drop_drop, h8]
    exact List.drop_left' hb
  have h24 : w.drop 24 = d ++ (sym ++ [s, t]) := by
    rw [show (24 : Nat) = 16 + 8 from rfl, ← List.drop_drop, h16]
    exact List.drop_left' hc
  have h28 : w.drop 28 = sym ++ [s, t] := by
    rw [show (28 : Nat) = 24 + 4 from rfl, ← List.drop_drop, h24]
    exact List.drop_left' hd
  have h36 : w.drop 36 = [s, t] := by
    rw [show (36 : Nat) = 28 + 8 from rfl, ← List.drop_drop, h28]
    exact List.drop_left' hsy
  have h37 : w.drop 37 = [t] := by
    rw [show (37 : Nat) = 36 + 1 from rfl, ← List.drop_drop, h36]
    rfl
  have t0 : w.take 8 = a := List.take_left' ha
  have t8 : (w.drop 8).take 8 = b := by rw [h8]; exact List.take_left' hb
  have t16 : (w.drop 16).take 8 = c := by rw [h16]; exact List.take_left' hc
  have t24 : (w.drop 24).take 4 = d := by rw [h24]; exact List.take_left' hd
  have t28 : (w.drop 28).take 8 = sym := by rw [h28]; exact List.take_left' hsy
  have hside : (w.drop 36).headD 0 = s := by rw [h36]; rfl
  have htype : (w.drop 37).headD 0 = t := by rw [h37]; rfl
  simp only [decodeRecord, t0, t8, t16, t24, t28, hside, htype]

/-- Claim C1: the codec round-trip.  For every machine-representable
`Order` whose symbol bytes up to the first null are alphanumeric, whose
price compares greater than `0.0`, and whose quantity is non-zero, decoding
the 38-byte buffer produced by `serialize` succeeds and returns the record
unchanged, field for field. -/
theorem parse_serialize_roundtrip (o : Order) (hWF : o.WF)
    (hsym : validateSymbol o.symbol = true)
    (hpr : validatePrice o.price = true)
    (hqty : validateQuantity o.quantity = true) :
    parse (serialize o) = .ok o := by
  obtain ⟨oid, ts, sym, pr, qty, sd, ty⟩ := o
  obtain ⟨h1, h2, hlen, -, h3, h4, -, -⟩ := hWF
  have hs : (serialize ⟨oid, ts, sym, pr, qty, sd, ty⟩).length = 38 :=
    serialize_length _ hlen
  unfold parse
  rw [if_neg (by omega)]
  rw [show (serialize ⟨oid, ts, sym, pr, qty, sd, ty⟩).take 38 =
        serialize ⟨oid, ts, sym, pr, qty, sd, ty⟩ from by
      rw [← hs]; exact List.take_length _]
  unfold serialize
  rw [decodeRecord_fields _ _ _ _ _ _ _ (toBytesBE_length 8 _) (toBytesBE_length 8 _)
    (toBytesBE_length 8 _) (toBytesBE_length 4 _) hlen]
  have e1 : fromBytesBE (toBytesBE 8 oid) = oid :=
    fromBytesBE_toBytesBE_of_lt (by norm_num at h1 ⊢; omega)
  have e2 : fromBytesBE (toBytesBE 8 ts) = ts :=
    fromBytesBE_toBytesBE_of_lt (by norm_num at h2 ⊢; omega)
  have e3 : fromBytesBE (toBytesBE 8 pr) = pr :=
    fromBytesBE_toBytesBE_of_lt (by norm_num at h3 ⊢; omega)
  have e4 : fromBytesBE (toBytesBE 4 qty) = qty :=
    fromBytesBE_toBytesBE_of_lt (by norm_num at h4 ⊢; omega)
  rw [e1, e2, e3, e4] at *
  simp [hsym, hpr, hqty]

/-- Witness for C1 at a concrete record: symbol `AAPL` padded with nulls,
price bit pattern of `1.0`, quantity 10. -/
theorem parse_serialize_roundtrip_witness :
    (Order.WF ⟨1, 2, [65, 65, 80, 76, 0, 0, 0, 0], 4607182418800017408, 10, 1, 1⟩) ∧
    validateSymbol [65, 65, 80, 76, 0, 0, 0, 0] = true ∧
    validatePrice 4607182418800017408 = true ∧
    validateQuantity 10 = true ∧
    parse (serialize ⟨1, 2, [65, 65, 80, 76, 0, 0, 0, 0], 4607182418800017408, 10, 1, 1⟩) =
      .ok ⟨1, 2, [65, 65, 80, 76, 0, 0, 0, 0], 4607182418800017408, 10, 1, 1⟩ :=
  ⟨by decide, by decide, by decide, by decide,
    parse_serialize_roundtrip _ (by decide) (by decide) (by decide) (by decide)⟩

/-- Claim C5: validation precedence.  On a buffer of at least 38 bytes whose
symbol field fails validation and whose price field also fails validation,
decoding reports the symbol failure, not the price failure: the symbol check
runs first and short-circuits. -/
theorem parse_invalid_symbol_first (data : List Nat) (h38 : 38 ≤ data.length)
    (hsym : validateSymbol (((data.take 38).drop 28).take 8) = false)
    (hpr : validatePrice (fromBytesBE (((data.take 38).drop 16).take 8)) = false) :
    parse data = .error .InvalidSymbol := by
  unfold parse
  rw [if_neg (by omega)]
  unfold decodeRecord
  simp [hsym]

/-- Witness for C5: a 38-byte buffer whose symbol field starts with the
non-alphanumeric byte 1 and whose price field is the bit pattern of `0.0`. -/
theorem parse_invalid_symbol_first_witness :
    38 ≤ (List.replicate 28 0 ++ ([1] ++ List.replicate 9 0) : List Nat).length ∧
    validateSymbol ((((List.replicate 28 0 ++ ([1] ++ List.replicate 9 0) : List Nat).take 38).drop 28).take 8) = false ∧
    validatePrice (fromBytesBE ((((List.replicate 28 0 ++ ([1] ++ List.replicate 9 0) : List Nat).take 38).drop 16).take 8)) = false ∧
    parse (List.replicate 28 0 ++ ([1] ++ List.replicate 9 0)) = .error .InvalidSymbol :=
  ⟨by decide, by decide, by decide,
    parse_invalid_symbol_first _ (by decide) (by decide) (by decide)⟩

/-- Claim C9: on any buffer (38-byte record plus any suffix) whose symbol,
price and quantity fields validate, decoding succeeds whatever the two tag
bytes at offsets 36 and 37 hold — `s` and `t` range over all naturals, in
particular all 256 byte values — and the returned record stores exactly
those wire bytes as its side and type tags; no range check is applied. -/
theorem parse_tag_bytes_verbatim (a b c d sym suffix : List Nat) (s t : Nat)
    (ha : a.length = 8) (hb : b.length = 8) (hc : c.length = 8)
    (hd : d.length = 4) (hsy : sym.length = 8)
    (hsym : validateSymbol sym = true)
    (hpr : validatePrice (fromBytesBE c) = true)
    (hqty : validateQuantity (fromBytesBE d) = true) :
    parse (a ++ (b ++ (c ++ (d ++ (sym ++ ([s, t] ++ suffix)))))) =
      .ok { order_id := fromBytesBE a, timestamp_ns := fromBytesBE b, symbol := sym,
            price := fromBytesBE c, quantity := fromBytesBE d, side := s, type := t } := by
  have hW : a ++ (b ++ (c ++ (d ++ (sym ++ ([s, t] ++ suffix))))) =
      (a ++ (b ++ (c ++ (d ++ (sym ++ [s, t]))))) ++ suffix := by
    simp [List.append_assoc]
  have hlen : (a ++ (b ++ (c ++ (d ++ (sym ++ [s, t]))))).length = 38 := by
    simp [List.length_append, ha, hb, hc, hd, hsy]
  unfold parse
  rw [hW]
  rw [if_neg (by rw [List.length_append, hlen]; omega)]
  rw [List.take_left' hlen]
  rw [decodeRecord_fields _ _ _ _ _ _ _ ha hb hc hd hsy]
  simp [hsym, hpr, hqty]

/-- Witness for C9: a valid record body with the out-of-range side byte 255
and the out-of-range type byte 7, both copied verbatim into the record. -/
theorem parse_tag_bytes_verbatim_witness :
    validateSymbol [65, 0, 0, 0, 0, 0, 0, 0] = true ∧
    validatePrice (fromBytesBE [63, 240, 0, 0, 0, 0, 0, 0]) = true ∧
    validateQuantity (fromBytesBE [0, 0, 0, 1]) = true ∧
    parse (List.replicate 8 0 ++ (List.replicate 8 0 ++ ([63, 240, 0, 0, 0, 0, 0, 0] ++
        ([0, 0, 0, 1] ++ ([65, 0, 0, 0, 0, 0, 0, 0] ++ ([255, 7] ++ [])))))) =
      .ok { order_id := fromBytesBE (List.replicate 8 0),
            timestamp_ns := fromBytesBE (List.replicate 8 0),
            symbol := [65, 0, 0, 0, 0, 0, 0, 0],
            price := fromBytesBE [63, 240, 0, 0, 0, 0, 0, 0],
            quantity := fromBytesBE [0, 0, 0, 1], side := 255, type := 7 } :=
  ⟨by decide, by decide, by decide,
    parse_tag_bytes_verbatim _ _ _ _ _ _ _ _ (by decide) (by decide) (by decide)
      (by decide) (by decide) (by decide) (by decide) (by decide)⟩

/-- Construction failure of the channel, modelling the
`std::invalid_argument` thrown by the `SPSCQueue` constructor. -/
inductive ChannelError where
  | InvalidCapacity
  deriving Repr, DecidableEq

/-- Model of `spscqueue::SPSCQueue<T>`: fixed capacity, slot storage, and the
two cursors.  A slot holds `some x` between the push that placement-constructs
`x` and the pop that destroys it, and `none` otherwise. -/
structure SPSCQueue (α : Type) where
  capacity : Nat
  buffer : Nat → Option α
  head : Nat
  tail : Nat

/-- The state the `SPSCQueue` constructor establishes after its capacity
check: both cursors zero and no live slot. -/
def freshQueue (α : Type) (capacity : Nat) : SPSCQueue α :=
  { capacity := capacity, buffer := fun _ => none, head := 0, tail := 0 }

/-- Model of the `SPSCQueue` constructor: reject any capacity below 2 or with
`capacity & (capacity - 1) != 0`, otherwise produce the fresh channel. -/
def mkSPSCQueue (α : Type) (capacity : Nat) : Except ChannelError (SPSCQueue α) :=
  if capacity < 2 ∨ (capacity &&& (capacity - 1)) ≠ 0 then .error .InvalidCapacity
  else .ok (freshQueue α capacity)

/-- Model of `SPSCQueue<T>::push`: compute the next write position with the
power-of-two mask; fail (`Full`) if it equals the read cursor, with no state
change; otherwise construct the item in the current head slot and publish the
advanced write cursor. -/
def SPSCQueue.push {α : Type} (q : SPSCQueue α) (item : α) : SPSCQueue α × Bool :=
  let h := q.head
  let next := (h + 1) &&& (q.capacity - 1)
  if next = q.tail then (q, false)
  else ({ q with
          buffer := (fun j => if j = h then some item else q.buffer j),
          head := next }, true)

/-- Model of `SPSCQueue<T>::pop`: fail (`Empty`, boolean result `false`) if
the cursors coincide; otherwise move the element out of the tail slot (the
`Option` component models the out-parameter), destroy the slot, and publish
the advanced read cursor, returning `true`. -/
def SPSCQueue.pop {α : Type} (q : SPSCQueue α) : SPSCQueue α × Bool × Option α :=
  let t := q.tail
  if t = q.head then (q, false, none)
  else ({ q with
          buffer := (fun j => if j = t then none else q.buffer j),
          tail := (t + 1) &&& (q.capacity - 1) }, true, q.buffer t)

/-- One operation of the single producer (a push of a value) or of the single
consumer (a pop). -/
inductive ChanOp (α : Type) where
  | push (x : α)
  | pop

/-- Run a sequence of operations from a given state while counting the live
elements: successful pushes increment the count, successful pops decrement
it. -/
def execOps {α : Type} : SPSCQueue α → Nat → List (ChanOp α) → SPSCQueue α × Nat
  | q, live, [] => (q, live)
  | q, live, ChanOp.push x :: rest =>
      let r := q.push x
      execOps r.1 (if r.2 then live + 1 else live) rest
  | q, live, ChanOp.pop :: rest =>
      let r := q.pop
      execOps r.1 (if r.2.1 then live - 1 else live) rest

/-- Cursor invariant of the channel: cursors stay below the capacity, the
live count stays below the capacity, and the write cursor is the read cursor
advanced by the live count modulo the capacity. -/
def QInv {α : Type} (cap : Nat) (q : SPSCQueue α) (live : Nat) : Prop :=
  q.capacity = cap ∧ q.head < cap ∧ q.tail < cap ∧ live ≤ cap - 1 ∧
  q.head = (q.tail + live) % cap

theorem and_pred_eq_zero_iff_pow2 (c : Nat) (h1 : 1 ≤ c) :
    c &&& (c - 1) = 0 ↔ ∃ k, c = 2 ^ k := by
  constructor
  · intro h
    by_contra hnp
    push_neg at hnp
    have hle : 2 ^ c.log2 ≤ c := Nat.log2_self_le (by omega)
    have hlt : c < 2 ^ (c.log2 + 1) := Nat.lt_log2_self
    have hne : c ≠ 2 ^ c.log2 := hnp c.log2
    have hc1 : c / 2 ^ c.log2 = 1 :=
      Nat.div_eq_of_lt_le (by omega) (by rw [pow_succ] at hlt; omega)
    have hc2 : (c - 1) / 2 ^ c.log2 = 1 :=
      Nat.div_eq_of_lt_le (by omega) (by rw [pow_succ] at hlt; omega)
    have hb1 : Nat.testBit c c.log2 = true := by
      rw [Nat.testBit_to_div_mod, hc1]; rfl
    have hb2 : Nat.testBit (c - 1) c.log2 = true := by
      rw [Nat.testBit_to_div_mod, hc2]; rfl
    have hcontra := congrArg (fun x => Nat.testBit x c.log2) h
    simp only [Nat.testBit_land, hb1, hb2, Nat.zero_testBit, Bool.and_true] at hcontra
    exact Bool.noConfusion hcontra
  · rintro ⟨k, rfl⟩
    rw [Nat.and_pow_two_sub_one_eq_mod, Nat.mod_self]

/-- Claim C6: channel construction succeeds exactly for capacities that are
powers of two and at least 2; every other capacity fails with
`InvalidCapacity`, so no channel comes into existence. -/
theorem mkSPSCQueue_ok_iff (c : Nat) :
    ((∃ q, mkSPSCQueue Nat c = .ok q) ↔ (2 ≤ c ∧ ∃ k, c = 2 ^ k)) ∧
    (¬ (2 ≤ c ∧ ∃ k, c = 2 ^ k) → mkSPSCQueue Nat c = .error .InvalidCapacity) := by
  unfold mkSPSCQueue
  by_cases hcond : c < 2 ∨ (c &&& (c - 1)) ≠ 0
  · rw [if_pos hcond]
    constructor
    · constructor
      · rintro ⟨q, hq⟩; cases hq
      · rintro ⟨h2, k, rfl⟩
        rcases hcond with h | h
        · omega
        · exact absurd ((and_pred_eq_zero_iff_pow2 _ (by omega)).mpr ⟨k, rfl⟩) h
    · intro _; rfl
  · rw [if_neg hcond]
    push_neg at hcond
    obtain ⟨h2, hand⟩ := hcond
    have hpow : ∃ k, c = 2 ^ k := (and_pred_eq_zero_iff_pow2 _ (by omega)).mp hand
    constructor
    · exact ⟨fun _ => ⟨by omega, hpow⟩, fun _ => ⟨freshQueue Nat c, rfl⟩⟩
    · intro hcon; exact absurd ⟨by omega, hpow⟩ hcon

/-- Witness for C6 at capacity 4, a power of two. -/
theorem mkSPSCQueue_ok_iff_witness :
    (2 ≤ 4 ∧ ∃ k, 4 = 2 ^ k) ∧ ∃ q, mkSPSCQueue Nat 4 = .ok q :=
  ⟨⟨by decide, 2, by decide⟩, (mkSPSCQueue_ok_iff 4).1.mpr ⟨by decide, 2, by decide⟩⟩

theorem push_inv {α : Type} {cap k : Nat} (hcap : cap = 2 ^ k) (h2 : 2 ≤ cap)
    {q : SPSCQueue α} {live : Nat} (x : α) (hI : QInv cap q live) :
    QInv cap (q.push x).1 (if (q.push x).2 then live + 1 else live) := by
  obtain ⟨hc, hh, ht, hl, he⟩ := hI
  have hcap0 : 0 < cap := by omega
  have hmask : (q.head + 1) &&& (q.capacity - 1) = (q.head + 1) % cap := by
    rw [hc, hcap, Nat.and_pow_two_sub_one_eq_mod]
  by_cases hfull : (q.head + 1) &&& (q.capacity - 1) = q.tail
  · have hp : q.push x = (q, false) := by
      simp only [SPSCQueue.push]
      rw [if_pos hfull]
    rw [hp]
    exact ⟨hc, hh, ht, hl, he⟩
  · have hp : q.push x =
        ({ q with
           buffer := (fun j => if j = q.head then some x else q.buffer j),
           head := (q.head + 1) &&& (q.capacity - 1) }, true) := by
      simp only [SPSCQueue.push]
      rw [if_neg hfull]
    rw [hp]
    refine ⟨hc, ?_, ht, ?_, ?_⟩
    · show ((q.head + 1) &&& (q.capacity - 1)) < cap
      rw [hmask]
      exact Nat.mod_lt _ hcap0
    · show live + 1 ≤ cap - 1
      by_contra hgt
      have hlive : live = cap - 1 := by omega
      apply hfull
      rw [hmask, he, Nat.mod_add_mod, hlive]
      have harith : q.tail + (cap - 1) + 1 = q.tail + cap := by omega
      rw [harith, Nat.add_mod_right, Nat.mod_eq_of_lt ht]
    · show ((q.head + 1) &&& (q.capacity - 1)) = (q.tail + (live + 1)) % cap
      rw [hmask, he, Nat.mod_add_mod]
      have harith : q.tail + live + 1 = q.tail + (live + 1) := by omega
      rw [harith]

theorem pop_inv {α : Type} {cap k : Nat} (hcap : cap = 2 ^ k) (h2 : 2 ≤ cap)
    {q : SPSCQueue α} {live : Nat} (hI : QInv cap q live) :
    QInv cap q.pop.1 (if q.pop.2.1 then live - 1 else live) := by
  obtain ⟨hc, hh, ht, hl, he⟩ := hI
  have hcap0 : 0 < cap := by omega
  by_cases hempty : q.tail = q.head
  · have hp : q.pop = (q, false, none) := by
      simp only [SPSCQueue.pop]
      rw [if_pos hempty]
    rw [hp]
    exact ⟨hc, hh, ht, hl, he⟩
  · have hp : q.pop =
        ({ q with
           buffer := (fun j => if j = q.tail then none else q.buffer j),
           tail := (q.tail + 1) &&& (q.capacity - 1) }, true, q.buffer q.tail) := by
      simp only [SPSCQueue.pop]
      rw [if_neg hempty]
    rw [hp]
    have hlive : live ≠ 0 := by
      intro h0
      rw [h0, Nat.add_zero, Nat.mod_eq_of_lt ht] at he
      exact hempty he.symm
    have hmask : (q.tail + 1) &&& (q.capacity - 1) = (q.tail + 1) % cap := by
      rw [hc, hcap, Nat.and_pow_two_sub_one_eq_mod]
    refine ⟨hc, hh, ?_, show live - 1 ≤ cap - 1 by omega, ?_⟩
    · show ((q.tail + 1) &&& (q.capacity - 1)) < cap
      rw [hmask]
      exact Nat.mod_lt _ hcap0
    · show q.head = (((q.tail + 1) &&& (q.capacity - 1)) + (live - 1)) % cap
      rw [hmask, Nat.mod_add_mod, he]
      have harith : q.tail + 1 + (live - 1) = q.tail + live := by omega
      rw [harith]

theorem execOps_inv {α : Type} {cap k : Nat} (hcap : cap = 2 ^ k) (h2 : 2 ≤ cap) :
    ∀ (ops : List (ChanOp α)) (q : SPSCQueue α) (live : Nat), QInv cap q live →
      QInv cap (execOps q live ops).1 (execOps q live ops).2
  | [], q, live, hI => hI
  | ChanOp.push x :: rest, q, live, hI =>
      execOps_inv hcap h2 rest _ _ (push_inv hcap h2 x hI)
  | ChanOp.pop :: rest, q, live, hI =>
      execOps_inv hcap h2 rest _ _ (pop_inv hcap h2 hI)

/-- Claim C3: on a channel of capacity `2 ^ k` (`k ≥ 1`), under every
sequence of pushes and pops from construction, the number of live elements
(successful pushes minus successful pops) never exceeds `capacity - 1`; in
particular, on the freshly constructed capacity-4 channel, three successive
pushes succeed and a fourth push fails (`Full`). -/
theorem spsc_live_bound (α : Type) (k : Nat) (ops : List (ChanOp α)) (hk : 1 ≤ k) :
    (execOps (freshQueue α (2 ^ k)) 0 ops).2 ≤ 2 ^ k - 1 ∧
    mkSPSCQueue Nat 4 = .ok (freshQueue Nat 4) ∧
    ((freshQueue Nat 4).push 1).2 = true ∧
    (((freshQueue Nat 4).push 1).1.push 2).2 = true ∧
    ((((freshQueue Nat 4).push 1).1.push 2).1.push 3).2 = true ∧
    (((((freshQueue Nat 4).push 1).1.push 2).1.push 3).1.push 4).2 = false := by
  have h2 : 2 ≤ 2 ^ k := by
    calc 2 = 2 ^ 1 := rfl
    _ ≤ 2 ^ k := Nat.pow_le_pow_right (by omega) hk
  have hfresh : QInv (2 ^ k) (freshQueue α (2 ^ k)) 0 := by
    refine ⟨rfl, show 0 < 2 ^ k by omega, show 0 < 2 ^ k by omega, by omega, ?_⟩
    show (0 : Nat) = (0 + 0) % 2 ^ k
    rw [Nat.add_zero, Nat.zero_mod]
  refine ⟨(execOps_inv rfl h2 ops _ 0 hfresh).2.2.2.1, rfl, by decide, by decide,
    by decide, by decide⟩

/-- Witness for C3 at capacity `2 ^ 2 = 4` with a concrete operation
sequence of three pushes, one pop and one push. -/
theorem spsc_live_bound_witness :
    1 ≤ 2 ∧
    ((execOps (freshQueue Nat (2 ^ 2)) 0
        [ChanOp.push 5, ChanOp.push 6, ChanOp.push 7, ChanOp.pop, ChanOp.push 8]).2 ≤ 2 ^ 2 - 1 ∧
      mkSPSCQueue Nat 4 = .ok (freshQueue Nat 4) ∧
      ((freshQueue Nat 4).push 1).2 = true ∧
      (((freshQueue Nat 4).push 1).1.push 2).2 = true ∧
      ((((freshQueue Nat 4).push 1).1.push 2).1.push 3).2 = true ∧
      (((((freshQueue Nat 4).push 1).1.push 2).1.push 3).1.push 4).2 = false) :=
  ⟨by decide, spsc_live_bound Nat 2
    [ChanOp.push 5, ChanOp.push 6, ChanOp.push 7, ChanOp.pop, ChanOp.push 8] (by decide)⟩

/-- State of the latency ring: the process-wide sample array
`timestamps_RDTSC` (zero-initialised) and the static write index `s_idx`
(zero-initialised).  The source fixes the capacity at
`MessageParser::MAX_SAMPLES = 1000000`; the capacity is kept as a parameter
so the ring behaviour can be stated for the spec's capacity-`C` ring. -/
structure LatencyRing where
  arr : Nat → Nat
  s_idx : Nat

/-- The `MessageParser::MAX_SAMPLES` constant: the ring capacity used by the
program. -/
def MAX_SAMPLES : Nat := 1000000

/-- Model of `MessageParser::recordLatency`: store the sample at the write
index modulo the capacity, then increment the index. -/
def recordLatency (cap : Nat) (r : LatencyRing) (latency : Nat) : LatencyRing :=
  { arr := (fun j => if j = r.s_idx % cap then latency else r.arr j),
    s_idx := r.s_idx + 1 }

/-- Record the samples `v 0, …, v (n-1)`, in order, into an initially fresh
ring. -/
def recordAll (cap : Nat) (v : Nat → Nat) : Nat → LatencyRing
  | 0 => { arr := fun _ => 0, s_idx := 0 }
  | n + 1 => recordLatency cap (recordAll cap v n) (v n)

theorem sub_lt_cap_of_mod_eq {cap i n : Nat} (hpos : 0 < n - i) (hlt : n - i < cap)
    (hmod : i % cap = n % cap) : False := by
  have hin : i ≤ n := by omega
  have hdvd : cap ∣ n - i := (Nat.modEq_iff_dvd' hin).mp hmod
  have := Nat.le_of_dvd hpos hdvd
  omega

theorem recordAll_s_idx (cap : Nat) (v : Nat → Nat) (n : Nat) :
    (recordAll cap v n).s_idx = n := by
  induction n with
  | zero => rfl
  | succ m ih => simp [recordAll, recordLatency, ih]

theorem recordAll_slot (cap : Nat) (v : Nat → Nat) (n : Nat) :
    ∀ i, n - cap ≤ i → i < n → (recordAll cap v n).arr (i % cap) = v i := by
  induction n with
  | zero => intro i _ h; omega
  | succ m ih =>
    intro i hge hlt
    by_cases hi : i = m
    · subst hi
      simp [recordAll, recordLatency, recordAll_s_idx]
    · have hne : i % cap ≠ m % cap := by
        intro he
        exact sub_lt_cap_of_mod_eq (by omega) (by omega) he
      have hstep : (recordAll cap v (m + 1)).arr (i % cap) =
          (recordAll cap v m).arr (i % cap) := by
        simp only [recordAll, recordLatency, recordAll_s_idx]
        rw [if_neg hne]
      rw [hstep]
      exact ih i (by omega) (by omega)

/-- Counterexample to claim C7 as stated: with capacity 4 and samples
`0, 1, 2, 3, 4, 5` (sample number `i` has value `i`, `N = 6 > C = 4`), slot
`k = 0` of the ring holds sample number 4 (value 4), not sample number
`N - C + k = 2` (value 2): sample number `i` lands in slot `i mod C`, so
slot `k` holds the most recent sample congruent to `k`, which is
`N - C + k` only when `C` divides `N`. -/
theorem ring_overwrite_claim_counterexample :
    (recordAll 4 (fun i => i) 6).arr 0 = 4 ∧ (recordAll 4 (fun i => i) 6).arr 0 ≠ 2 := by
  constructor
  · rfl
  · intro h
    exact absurd h (by decide)

/-- Claim C7 (amended): recording samples `0 … N-1` (with `N > C > 0`) into
an initially fresh capacity-`C` ring leaves, for every `k < C`, the slot
`(N - C + k) mod C` holding the value of sample number `N - C + k`: the ring
retains exactly the last `C` samples, each stored at its sample number
modulo `C`. -/
theorem recordLatency_ring_overwrite (C N k : Nat) (v : Nat → Nat)
    (hC : 0 < C) (hN : C < N) (hk : k < C) :
    (recordAll C v N).arr ((N - C + k) % C) = v (N - C + k) :=
  recordAll_slot C v N (N - C + k) (by omega) (by omega)

/-- Witness for the amended C7 at capacity 4, six samples, `k = 0`: slot
`(6 - 4 + 0) % 4 = 2` holds sample number 2. -/
theorem recordLatency_ring_overwrite_witness :
    (0 < 4 ∧ 4 < 6 ∧ 0 < 4) ∧
    (recordAll 4 (fun i => i) 6).arr ((6 - 4 + 0) % 4) = 6 - 4 + 0 :=
  ⟨⟨by decide, by decide, by decide⟩,
    recordLatency_ring_overwrite 4 6 0 (fun i => i) (by decide) (by decide) (by decide)⟩

/-- Fuel-driven binary logarithm: `log2F fuel n` halves `n` until it drops
below 2, adding one per halving; with `fuel ≥ n` it is the floor of the base-2
logarithm.  The explicit fuel keeps the recursion structural. -/
def log2F : Nat → Nat → Nat
  | 0, _ => 0
  | fuel + 1, n => if 2 ≤ n then log2F fuel (n / 2) + 1 else 0

/-- Floor of the base-2 logarithm of a positive natural number. -/
def natLog2 (n : Nat) : Nat := log2F n n

/-- Round the nonnegative fraction `n / d` (with `d > 0`) to the nearest
integer, ties to even — the IEEE-754 default rounding of the final quotient
step. -/
def rhe (n d : Nat) : Nat :=
  let i := n / d
  let r := n % d
  if 2 * r < d then i
  else if d < 2 * r then i + 1
  else if i % 2 = 0 then i else i + 1

/-- Round the positive rational `a / b` (`a, b ≥ 1`) to IEEE-754 binary64:
find the exponent `e` with `2^e ≤ a/b < 2^(e+1)`, quantise to the format's
quantum `2^max(e-52, -1074)` (53-bit significands, subnormals below
`2^-1022`) with round-to-nearest, ties-to-even, and return the resulting
value as a numerator/denominator pair of naturals.  Faithful to binary64 for
every value below the overflow threshold `2^1024`; all doubles this program
can produce (`uint64` samples, their running sums over at most `MAX_SAMPLES`
entries, and their quotients) lie far below it. -/
def roundPosCore (a b : Nat) : Nat × Nat :=
  let la := natLog2 a
  let lb := natLog2 b
  let e : Int := if b * 2 ^ la ≤ a * 2 ^ lb then (la : Int) - lb else (la : Int) - lb - 1
  let qe : Int := max (e - 52) (-1074)
  if 0 ≤ qe then
    (rhe a (b * 2 ^ qe.toNat) * 2 ^ qe.toNat, 1)
  else
    (rhe (a * 2 ^ (-qe).toNat) b, 2 ^ (-qe).toNat)

/-- Round a rational to the binary64 value nearest to it (ties to even),
represented by its exact rational value: the effect of producing the number
in C++ `double` arithmetic. -/
def roundDouble (x : ℚ) : ℚ :=
  if x = 0 then 0
  else if 0 < x then
    ((roundPosCore x.num.toNat x.den).1 : ℚ) / ((roundPosCore x.num.toNat x.den).2 : ℚ)
  else
    -(((roundPosCore (-x.num).toNat x.den).1 : ℚ) / ((roundPosCore (-x.num).toNat x.den).2 : ℚ))

/-- The C++ conversion of a `uint64_t` (or `size_t`) value to `double`:
round to the nearest representable value (the x86-64 conversion under the
default rounding mode). -/
def fpOfNat (n : Nat) : ℚ := roundDouble (n : ℚ)

/-- Correctly rounded `double` addition. -/
def fpAdd (x y : ℚ) : ℚ := roundDouble (x + y)

/-- Correctly rounded `double` division. -/
def fpDiv (x y : ℚ) : ℚ := roundDouble (x / y)

theorem log2F_spec : ∀ fuel n, 1 ≤ n → n ≤ fuel →
    2 ^ log2F fuel n ≤ n ∧ n < 2 ^ (log2F fuel n + 1) := by
  intro fuel
  induction fuel with
  | zero => intro n h1 h2; omega
  | succ f ih =>
    intro n h1 h2
    rw [log2F]
    by_cases h : 2 ≤ n
    · rw [if_pos h]
      have hn2 : 1 ≤ n / 2 := by omega
      have hf : n / 2 ≤ f := by omega
      obtain ⟨hl, hr⟩ := ih (n / 2) hn2 hf
      constructor
      · have : 2 ^ (log2F f (n / 2) + 1) = 2 * 2 ^ log2F f (n / 2) := by ring
        rw [this]
        omega
      · have : 2 ^ (log2F f (n / 2) + 1 + 1) = 2 * 2 ^ (log2F f (n / 2) + 1) := by ring
        rw [this]
        omega
    · rw [if_neg h]
      constructor
      · simpa using h1
      · have : 2 ^ (0 + 1) = 2 := by norm_num
        omega

theorem natLog2_spec (n : Nat) (h : 1 ≤ n) :
    2 ^ natLog2 n ≤ n ∧ n < 2 ^ (natLog2 n + 1) :=
  log2F_spec n n h (Nat.le_refl n)

theorem rhe_den_one (n : Nat) : rhe n 1 = n := by
  simp only [rhe]
  rw [Nat.mod_one, Nat.div_one]
  norm_num

theorem roundPosCore_nat_exact (n : Nat) (h1 : 1 ≤ n) (h53 : n < 2 ^ 53) :
    ((roundPosCore n 1).1 : ℚ) / ((roundPosCore n 1).2 : ℚ) = (n : ℚ) := by
  obtain ⟨hl, hr⟩ := natLog2_spec n h1
  have hlb : natLog2 1 = 0 := rfl
  have hla53 : natLog2 n ≤ 52 := by
    by_contra hgt
    push_neg at hgt
    have h2 : 2 ^ 53 ≤ 2 ^ natLog2 n := Nat.pow_le_pow_right (by omega) (by omega)
    omega
  simp only [roundPosCore, hlb, pow_zero, mul_one, one_mul, Nat.cast_zero, sub_zero]
  rw [if_pos hl]
  by_cases hla : natLog2 n = 52
  · rw [hla]
    have hqe0 : max (((52 : Nat) : Int) - 52) (-1074) = 0 := by omega
    rw [hqe0, if_pos (by omega : (0 : Int) ≤ 0)]
    norm_num [rhe_den_one]
  · have hlt : natLog2 n < 52 := by omega
    have hqe : max (((natLog2 n : Nat) : Int) - 52) (-1074) =
        -(((52 - natLog2 n : Nat) : Int)) := by omega
    rw [hqe]
    rw [if_neg (by omega)]
    have htn : (- -(((52 - natLog2 n : Nat) : Int))).toNat = 52 - natLog2 n := by omega
    rw [htn, rhe_den_one]
    push_cast
    rw [mul_div_assoc]
    have h2 : ((2 : ℚ) ^ (52 - natLog2 n)) ≠ 0 := by positivity
    rw [div_self h2, mul_one]

theorem roundDouble_natCast_core (n : Nat) (hn : n ≠ 0) :
    roundDouble ((n : Nat) : ℚ) =
      ((roundPosCore n 1).1 : ℚ) / ((roundPosCore n 1).2 : ℚ) := by
  unfold roundDouble
  rw [if_neg (by exact_mod_cast hn),
    if_pos (by exact_mod_cast Nat.pos_of_ne_zero hn)]
  norm_num

theorem roundDouble_natCast {n : Nat} (h53 : n < 2 ^ 53) :
    roundDouble ((n : Nat) : ℚ) = (n : ℚ) := by
  rcases Nat.eq_zero_or_pos n with rfl | hpos
  · simp [roundDouble]
  · rw [roundDouble_natCast_core n (by omega)]
    exact roundPosCore_nat_exact n hpos h53

theorem fpOfNat_exact {n : Nat} (h53 : n < 2 ^ 53) : fpOfNat n = (n : ℚ) :=
  roundDouble_natCast h53

theorem fpAdd_exact_nat {m n : Nat} (h53 : m + n < 2 ^ 53) :
    fpAdd ((m : Nat) : ℚ) ((n : Nat) : ℚ) = ((m + n : Nat) : ℚ) := by
  unfold fpAdd
  rw [← Nat.cast_add]
  exact roundDouble_natCast h53

theorem fpDiv_exact_nat {s c : Nat} (hdvd : c ∣ s) (hc : c ≠ 0)
    (h53 : s / c < 2 ^ 53) :
    fpDiv ((s : Nat) : ℚ) ((c : Nat) : ℚ) = ((s / c : Nat) : ℚ) := by
  unfold fpDiv
  rw [← Nat.cast_div hdvd (by exact_mod_cast hc)]
  exact roundDouble_natCast h53

theorem foldl_fpAdd_exact (l : List Nat) :
    ∀ a : Nat, a + l.sum < 2 ^ 53 →
      l.foldl (fun (acc : ℚ) (b : Nat) => fpAdd acc (fpOfNat b)) ((a : Nat) : ℚ) =
        ((a + l.sum : Nat) : ℚ) := by
  induction l with
  | nil => intro a h; simp
  | cons b bs ih =>
    intro a h
    rw [List.sum_cons] at h
    rw [List.foldl_cons, fpOfNat_exact (show b < 2 ^ 53 by omega),
      fpAdd_exact_nat (show a + b < 2 ^ 53 by omega),
      ih (a + b) (by omega)]
    have : a + b + bs.sum = a + (b :: bs).sum := by
      rw [List.sum_cons]
      omega
    rw [this]

/-- The report printed by `LatencyTracker::analyzeLatencies`, with fields in
the printed order.  The `avg` field is the C++ `double` it prints,
represented by its exact rational value. -/
structure LatencyReport where
  count : Nat
  min : Nat
  median : Nat
  avg : ℚ
  p99 : Nat
  p999 : Nat
  max : Nat
  deriving Repr, DecidableEq

/-- Model of `LatencyTracker::analyzeLatencies`.  A zero count produces the
"No latency data recorded" report (`none`) before any array access.
Otherwise the first `count` samples are copied out (the C++ reads exactly
`count` array entries; its callers guarantee `count` does not exceed the
array length), the minimum and maximum are folded over the copy, the average
is `std::accumulate(…, 0.0) / size` computed in `double` arithmetic — each
`uint64_t` sample converted to the nearest `double`, added with correct
rounding, and divided by the (converted) count — and the rank statistics
index an ascending-sorted copy (`std::sort`; a sorted ascending permutation
of the copy, which insertion sort realises here) at `n / 2`, `n * 99 / 100`
and `n * 999 / 1000`.  The last two indices are the C++ `(size_t)(n * 0.99)`
and `(size_t)(n * 0.999)`: for every `n` up to the `MAX_SAMPLES` array
length, the nearest-double rounding error of the product is smaller than its
distance to the enclosing integers, so the truncation equals the exact
floor. -/
def analyzeLatencies (timestampArr : List Nat) (count : Nat) : Option LatencyReport :=
  if count = 0 then none
  else
    match timestampArr.take count with
    | [] => none
    | x :: xs =>
      let latencies := x :: xs
      let sorted := List.insertionSort (· ≤ ·) latencies
      some { count := latencies.length
             min := xs.foldl Nat.min x
             median := sorted.getD (latencies.length / 2) 0
             avg := fpDiv (latencies.foldl (fun (acc : ℚ) (b : Nat) => fpAdd acc (fpOfNat b)) 0)
               (fpOfNat latencies.length)
             p99 := sorted.getD (latencies.length * 99 / 100) 0
             p999 := sorted.getD (latencies.length * 999 / 1000) 0
             max := xs.foldl Nat.max x }

theorem foldl_min_le (l : List Nat) : ∀ x y : Nat, y ∈ x :: l → l.foldl Nat.min x ≤ y := by
  induction l with
  | nil =>
    intro x y hy
    rw [List.mem_singleton] at hy
    rw [List.foldl_nil]
    omega
  | cons b bs ih =>
    intro x y hy
    rw [List.foldl_cons]
    rcases List.mem_cons.mp hy with rfl | hy2
    · exact Nat.le_trans (ih _ _ (List.mem_cons_self _ _)) (Nat.min_le_left y b)
    · rcases List.mem_cons.mp hy2 with rfl | hy3
      · exact Nat.le_trans (ih _ _ (List.mem_cons_self _ _)) (Nat.min_le_right x y)
      · exact ih _ _ (List.mem_cons_of_mem _ hy3)

theorem foldl_min_mem (l : List Nat) : ∀ x : Nat, l.foldl Nat.min x ∈ x :: l := by
  induction l with
  | nil => intro x; exact List.mem_singleton.mpr rfl
  | cons b bs ih =>
    intro x
    rw [List.foldl_cons]
    rcases List.mem_cons.mp (ih (Nat.min x b)) with he | hm
    · rw [he]
      have hd : Nat.min x b = if x ≤ b then x else b := Nat.min_def
      rw [hd]
      by_cases hxb : x ≤ b
      · rw [if_pos hxb]
        exact List.mem_cons_self _ _
      · rw [if_neg hxb]
        exact List.mem_cons_of_mem _ (List.mem_cons_self _ _)
    · exact List.mem_cons_of_mem _ (List.mem_cons_of_mem _ hm)

theorem foldl_max_ge (l : List Nat) : ∀ x y : Nat, y ∈ x :: l → y ≤ l.foldl Nat.max x := by
  induction l with
  | nil =>
    intro x y hy
    rw [List.mem_singleton] at hy
    rw [List.foldl_nil]
    omega
  | cons b bs ih =>
    intro x y hy
    rw [List.foldl_cons]
    rcases List.mem_cons.mp hy with rfl | hy2
    · exact Nat.le_trans (Nat.le_max_left y b) (ih _ _ (List.mem_cons_self _ _))
    · rcases List.mem_cons.mp hy2 with rfl | hy3
      · exact Nat.le_trans (Nat.le_max_right x y) (ih _ _ (List.mem_cons_self _ _))
      · exact ih _ _ (List.mem_cons_of_mem _ hy3)

theorem foldl_max_mem (l : List Nat) : ∀ x : Nat, l.foldl Nat.max x ∈ x :: l := by
  induction l with
  | nil => intro x; exact List.mem_singleton.mpr rfl
  | cons b bs ih =>
    intro x
    rw [List.foldl_cons]
    rcases List.mem_cons.mp (ih (Nat.max x b)) with he | hm
    · rw [he]
      have hd : Nat.max x b = if x ≤ b then b else x := Nat.max_def
      rw [hd]
      by_cases hxb : x ≤ b
      · rw [if_pos hxb]
        exact List.mem_cons_of_mem _ (List.mem_cons_self _ _)
      · rw [if_neg hxb]
        exact List.mem_cons_self _ _
    · exact List.mem_cons_of_mem _ (List.mem_cons_of_mem _ hm)

/-- Counterexample to claim C8 as stated: the program does not compute the
arithmetic mean.  On the single admissible sample `2 ^ 63 + 1` (a valid
`uint64_t` latency), the `uint64`-to-`double` conversion rounds to `2 ^ 63`,
so the reported average is `2 ^ 63` and not the arithmetic mean
`(2 ^ 63 + 1) / 1`. -/
theorem analyzeLatencies_exact_mean_counterexample :
    ∃ r, analyzeLatencies [2 ^ 63 + 1] 1 = some r ∧
      r.avg = ((2 ^ 63 : Nat) : ℚ) ∧
      r.avg ≠ ((2 ^ 63 + 1 : Nat) : ℚ) / ((1 : Nat) : ℚ) := by
  have hr63 : roundDouble ((2 ^ 63 : Nat) : ℚ) = ((2 ^ 63 : Nat) : ℚ) := by
    rw [roundDouble_natCast_core _ (by norm_num),
      show roundPosCore (2 ^ 63) 1 = (2 ^ 63, 1) from by decide]
    norm_num
  have hofn : fpOfNat (2 ^ 63 + 1) = ((2 ^ 63 : Nat) : ℚ) := by
    unfold fpOfNat
    rw [roundDouble_natCast_core _ (by norm_num),
      show roundPosCore (2 ^ 63 + 1) 1 = (2 ^ 63, 1) from by decide]
    norm_num
  have hadd : fpAdd 0 ((2 ^ 63 : Nat) : ℚ) = ((2 ^ 63 : Nat) : ℚ) := by
    unfold fpAdd
    rw [zero_add]
    exact hr63
  have hone : fpOfNat 1 = ((1 : Nat) : ℚ) := fpOfNat_exact (by norm_num)
  have havg : fpDiv (fpAdd 0 (fpOfNat (2 ^ 63 + 1))) (fpOfNat 1) = ((2 ^ 63 : Nat) : ℚ) := by
    rw [hofn, hadd, hone]
    unfold fpDiv
    rw [Nat.cast_one, div_one]
    exact hr63
  have hc : analyzeLatencies [2 ^ 63 + 1] 1 =
      some { count := 1, min := 2 ^ 63 + 1, median := 2 ^ 63 + 1,
             avg := fpDiv (fpAdd 0 (fpOfNat (2 ^ 63 + 1))) (fpOfNat 1),
             p99 := 2 ^ 63 + 1, p999 := 2 ^ 63 + 1, max := 2 ^ 63 + 1 } := by
    norm_num [analyzeLatencies]
  refine ⟨_, hc, havg, ?_⟩
  rw [havg]
  norm_num

/-- Claim C8 (amended): for every positive count within the array,
`analyzeLatencies` produces a report whose count is the number of samples
analysed, whose min and max are attained on the sample prefix and bound it,
whose average is the mean computed in `double` arithmetic — equal to the
exact arithmetic mean whenever the sample sum and the count stay below
`2 ^ 53` and the count divides the sum (beyond that the conversions and
additions round, see the counterexample) — and whose median / 99th / 99.9th
percentile values index an ascending-sorted permutation of the prefix at
`floor(0.5 * n)`, `floor(0.99 * n)` and `floor(0.999 * n)`; a zero count
yields the explicit no-data report without touching the samples; and over
`[1, 2, 3, 4, 5]` the report has min 1, median 3, max 5 (both upper
percentile indices fall on the last element, value 5) and mean exactly 3. -/
theorem analyzeLatencies_spec (timestampArr : List Nat) (count : Nat)
    (h0 : count ≠ 0) (hle : count ≤ timestampArr.length) :
    (∀ arr2 : List Nat, analyzeLatencies arr2 0 = none) ∧
    analyzeLatencies [1, 2, 3, 4, 5] 5 =
      some { count := 5, min := 1, median := 3, avg := 3, p99 := 5, p999 := 5, max := 5 } ∧
    ∃ r : LatencyReport, analyzeLatencies timestampArr count = some r ∧
      r.count = count ∧
      r.min ∈ timestampArr.take count ∧ (∀ y ∈ timestampArr.take count, r.min ≤ y) ∧
      r.max ∈ timestampArr.take count ∧ (∀ y ∈ timestampArr.take count, y ≤ r.max) ∧
      ((timestampArr.take count).sum < 2 ^ 53 → count < 2 ^ 53 →
        count ∣ (timestampArr.take count).sum →
        r.avg = (((timestampArr.take count).sum : Nat) : ℚ) / ((count : Nat) : ℚ)) ∧
      ∃ s : List Nat, s.Perm (timestampArr.take count) ∧ s.Sorted (· ≤ ·) ∧
        r.median = s.getD (count / 2) 0 ∧
        r.p99 = s.getD (count * 99 / 100) 0 ∧
        r.p999 = s.getD (count * 999 / 1000) 0 := by
  have havg5 : fpDiv (List.foldl (fun (acc : ℚ) (b : Nat) => fpAdd acc (fpOfNat b)) 0
      [1, 2, 3, 4, 5]) (fpOfNat 5) = 3 := by
    have hf := foldl_fpAdd_exact [1, 2, 3, 4, 5] 0 (by norm_num)
    rw [Nat.cast_zero] at hf
    rw [hf, show (0 + [1, 2, 3, 4, 5].sum : Nat) = 15 from by decide,
      fpOfNat_exact (show (5 : Nat) < 2 ^ 53 by norm_num),
      fpDiv_exact_nat (show (5 : Nat) ∣ 15 from by decide) (by decide) (by decide)]
    norm_num
  have hc5 : analyzeLatencies [1, 2, 3, 4, 5] 5 =
      some { count := 5, min := 1, median := 3,
             avg := fpDiv (List.foldl (fun (acc : ℚ) (b : Nat) => fpAdd acc (fpOfNat b)) 0
               [1, 2, 3, 4, 5]) (fpOfNat 5),
             p99 := 5, p999 := 5, max := 5 } := by
    norm_num [analyzeLatencies]
  refine ⟨fun arr2 => by simp [analyzeLatencies], by rw [hc5, havg5], ?_⟩
  have hlen : (timestampArr.take count).length = count := by
    rw [List.length_take]
    omega
  obtain ⟨x, xs, hxl⟩ : ∃ x xs, timestampArr.take count = x :: xs := by
    cases hc : timestampArr.take count with
    | nil => rw [hc] at hlen; simp at hlen; omega
    | cons a as => exact ⟨a, as, rfl⟩
  have hxlen : (x :: xs).length = count := hxl ▸ hlen
  have hform : analyzeLatencies timestampArr count =
      some { count := (x :: xs).length
             min := xs.foldl Nat.min x
             median := (List.insertionSort (· ≤ ·) (x :: xs)).getD ((x :: xs).length / 2) 0
             avg := fpDiv ((x :: xs).foldl (fun (acc : ℚ) (b : Nat) => fpAdd acc (fpOfNat b)) 0)
               (fpOfNat (x :: xs).length)
             p99 := (List.insertionSort (· ≤ ·) (x :: xs)).getD ((x :: xs).length * 99 / 100) 0
             p999 := (List.insertionSort (· ≤ ·) (x :: xs)).getD ((x :: xs).length * 999 / 1000) 0
             max := xs.foldl Nat.max x } := by
    simp [analyzeLatencies, h0, hxl]
  rw [hform]
  refine ⟨_, rfl, ?_, ?_, ?_, ?_, ?_, ?_,
    List.insertionSort (· ≤ ·) (x :: xs), ?_, List.sorted_insertionSort _ _, ?_, ?_, ?_⟩
  · exact hxlen
  · rw [hxl]
    exact foldl_min_mem xs x
  · intro y hy
    rw [hxl] at hy
    exact foldl_min_le xs x y hy
  · rw [hxl]
    exact foldl_max_mem xs x
  · intro y hy
    rw [hxl] at hy
    exact foldl_max_ge xs x y hy
  · intro hsum hcnt hdvd
    show fpDiv ((x :: xs).foldl (fun (acc : ℚ) (b : Nat) => fpAdd acc (fpOfNat b)) 0)
        (fpOfNat (x :: xs).length) = _
    rw [hxlen, ← hxl]
    have hf := foldl_fpAdd_exact (timestampArr.take count) 0 (by omega)
    rw [Nat.cast_zero] at hf
    rw [show (0 + (timestampArr.take count).sum : Nat) = (timestampArr.take count).sum
      from by omega] at hf
    rw [hf, fpOfNat_exact hcnt,
      fpDiv_exact_nat hdvd h0 (by
        have hds := Nat.div_le_self (timestampArr.take count).sum count
        omega)]
    exact Nat.cast_div hdvd (by exact_mod_cast h0)
  · rw [hxl]
    exact List.perm_insertionSort _ _
  · show (List.insertionSort (· ≤ ·) (x :: xs)).getD ((x :: xs).length / 2) 0 = _
    rw [hxlen]
  · show (List.insertionSort (· ≤ ·) (x :: xs)).getD ((x :: xs).length * 99 / 100) 0 = _
    rw [hxlen]
  · show (List.insertionSort (· ≤ ·) (x :: xs)).getD ((x :: xs).length * 999 / 1000) 0 = _
    rw [hxlen]

/-- Witness for C8 at the concrete samples `[1, 2, 3, 4, 5]` with count 5. -/
theorem analyzeLatencies_spec_witness :
    ((5 : Nat) ≠ 0 ∧ 5 ≤ [1, 2, 3, 4, 5].length) ∧
    ((∀ arr2 : List Nat, analyzeLatencies arr2 0 = none) ∧
      analyzeLatencies [1, 2, 3, 4, 5] 5 =
        some { count := 5, min := 1, median := 3, avg := 3, p99 := 5, p999 := 5, max := 5 } ∧
      ∃ r : LatencyReport, analyzeLatencies [1, 2, 3, 4, 5] 5 = some r ∧
        r.count = 5 ∧
        r.min ∈ [1, 2, 3, 4, 5].take 5 ∧ (∀ y ∈ [1, 2, 3, 4, 5].take 5, r.min ≤ y) ∧
        r.max ∈ [1, 2, 3, 4, 5].take 5 ∧ (∀ y ∈ [1, 2, 3, 4, 5].take 5, y ≤ r.max) ∧
        (([1, 2, 3, 4, 5].take 5).sum < 2 ^ 53 → 5 < 2 ^ 53 →
          5 ∣ ([1, 2, 3, 4, 5].take 5).sum →
          r.avg = ((([1, 2, 3, 4, 5].take 5).sum : Nat) : ℚ) / ((5 : Nat) : ℚ)) ∧
        ∃ s : List Nat, s.Perm ([1, 2, 3, 4, 5].take 5) ∧ s.Sorted (· ≤ ·) ∧
          r.median = s.getD (5 / 2) 0 ∧
          r.p99 = s.getD (5 * 99 / 100) 0 ∧
          r.p999 = s.getD (5 * 999 / 1000) 0) :=
  ⟨⟨by decide, by decide⟩, analyzeLatencies_spec [1, 2, 3, 4, 5] 5 (by decide) (by decide)⟩

end LLEE
